import Mathlib

/-!
Verification of the `pla` HTTP load generator against its specification.

The development shallowly embeds the load-generation engine (the `boomer`
package: trigger loop, worker, lifecycle and builder methods), the
aggregator (`report.process` / `BasicInterface.ProcessResult` and the
report-printing path), and the bounded streaming histogram used for
latency percentiles.  Real-valued quantities (latencies in seconds, bin
centroids) are embedded as rationals; Go `time.Duration` values are
embedded as integer nanosecond counts.
-/

namespace Pla

/-! ## Streaming histogram

Modelled from the spec: the histogram implementation
(`gohistogram.NumericHistogram`) is an external dependency whose source is
not part of this repository; the definitions below follow the
specification's contract for `New`, `Add`, `Count`, `Quantile` and `Bins`:
sorted bins, merge of an identical value into its bin, merge-on-overflow of
the adjacent pair with the smallest value gap (ties broken at the lowest
index) into a count-weighted centroid, and quantile interpolation between
half-count cumulative bin centers with clamping to 0 outside the first or
last bin.
-/

/-- A histogram bin: centroid value and sample count. -/
structure Bin where
  value : ℚ
  count : ℕ
deriving DecidableEq, BEq

/-- The bounded streaming histogram: maximum bin count, ordered bins and a
running total of samples added. -/
structure NumericHistogram where
  maxBins : ℕ
  bins : List Bin
  total : ℕ
deriving DecidableEq, BEq

/-- `New(maxBins K)`: an empty histogram. -/
def NumericHistogram.new (k : ℕ) : NumericHistogram :=
  { maxBins := k, bins := [], total := 0 }

/-- Insert a value into the sorted bin list: merge into an existing bin with
an identical value, otherwise create a singleton bin at the sorted position. -/
def insertValue : List Bin → ℚ → List Bin
  | [], v => [{ value := v, count := 1 }]
  | b :: bs, v =>
    if v < b.value then { value := v, count := 1 } :: b :: bs
    else if v = b.value then { value := b.value, count := b.count + 1 } :: bs
    else b :: insertValue bs v

/-- Index of the smallest element of `x :: xs`, lowest index on ties;
`bestIdx` is the index of the best element seen so far and `idx` the index
of the head of the remaining list. -/
def argminFrom (best : ℚ) (bestIdx idx : ℕ) : List ℚ → ℕ
  | [] => bestIdx
  | x :: xs =>
    if x < best then argminFrom x idx (idx + 1) xs
    else argminFrom best bestIdx (idx + 1) xs

/-- The gaps between adjacent bin values. -/
def gaps (bins : List Bin) : List ℚ :=
  List.zipWith (fun a b => b.value - a.value) bins bins.tail

/-- Index of the adjacent pair of bins with the smallest value gap,
lowest-indexed pair on ties. -/
def minGapIndex (bins : List Bin) : ℕ :=
  match gaps bins with
  | [] => 0
  | g :: gs => argminFrom g 0 1 gs

/-- Merge two bins into one whose centroid is the count-weighted mean and
whose count is the sum. -/
def mergePair (b1 b2 : Bin) : Bin :=
  { value := (b1.value * b1.count + b2.value * b2.count) / ((b1.count : ℚ) + b2.count)
    count := b1.count + b2.count }

/-- Merge the adjacent pair of bins at positions `i`, `i+1`. -/
def mergeAt : List Bin → ℕ → List Bin
  | b1 :: b2 :: bs, 0 => mergePair b1 b2 :: bs
  | b :: bs, n + 1 => b :: mergeAt bs n
  | bs, _ => bs

/-- `Add(v)`: insert `v` at its sorted position; if the bin count now
exceeds `maxBins`, merge the adjacent pair with the smallest gap. -/
def NumericHistogram.add (h : NumericHistogram) (v : ℚ) : NumericHistogram :=
  let bs := insertValue h.bins v
  { maxBins := h.maxBins
    bins := if h.maxBins < bs.length then mergeAt bs (minGapIndex bs) else bs
    total := h.total + 1 }

/-- Sum of the bin counts. -/
def sumCounts (l : List Bin) : ℕ := (l.map Bin.count).sum

/-- Quantile walk: `t` is the target rank, `cum` the cumulative count of
the bins already passed, `prev` the half-count center and value of the
previous bin.  Returns 0 when the target falls outside the first or last
bin, otherwise interpolates linearly between the straddling centers. -/
def quantileAux (t : ℚ) (cum : ℚ) (prev : Option (ℚ × ℚ)) : List Bin → ℚ
  | [] => 0
  | b :: bs =>
    if t ≤ cum + (b.count : ℚ) / 2 then
      match prev with
      | none => 0
      | some (pc, pv) =>
        pv + (t - pc) * (b.value - pv) / (cum + (b.count : ℚ) / 2 - pc)
    else quantileAux t (cum + (b.count : ℚ)) (some (cum + (b.count : ℚ) / 2, b.value)) bs

/-- `Quantile(p)`: 0 on an empty histogram, otherwise the interpolated
value at target rank `p * Count()`. -/
def NumericHistogram.quantile (h : NumericHistogram) (p : ℚ) : ℚ :=
  if h.total = 0 then 0 else quantileAux (p * (h.total : ℚ)) 0 none h.bins

/-- Add a whole stream of samples to a fresh histogram of capacity `k`. -/
def addAll (k : ℕ) (vs : List ℚ) : NumericHistogram :=
  vs.foldl NumericHistogram.add (NumericHistogram.new k)

/-! ## Engine data model (`boomer` package) -/

/-- A job is one dispatched copy of the request template.  The engine never
inspects it, so it is embedded as an opaque token. -/
abbrev Job := ℕ

/-- Outcome of one call of the external transport
(`client.Do` / `client.DoTimeout`): either a response with a status code
and content length, or an error with a message. -/
inductive TransportOutcome where
  | ok (statusCode : ℤ) (contentLength : ℤ)
  | err (msg : String)
deriving DecidableEq

/-- One `Result` record published by a worker: error (if any), status
code, wall-clock duration in nanoseconds, content length. -/
structure Result where
  err : Option String
  statusCode : ℤ
  duration : ℤ
  contentLength : ℤ
deriving DecidableEq

/-- `time.Duration.Seconds()`: nanoseconds to seconds. -/
def durSeconds (d : ℤ) : ℚ := (d : ℚ) / 1000000000

/-- The body of one `runWorker` iteration: `code` and `size` start at 0 and
are taken from the response only when the transport call returned no error;
exactly one `Result` is published either way (`notifyResult`).  `elapsed`
is the measured wall-clock time around the call. -/
def executeJob (transport : Job → TransportOutcome) (elapsed : ℤ) (j : Job) : Result :=
  match transport j with
  | TransportOutcome.ok code size =>
    { err := none, statusCode := code, duration := elapsed, contentLength := size }
  | TransportOutcome.err m =>
    { err := some m, statusCode := 0, duration := elapsed, contentLength := 0 }

/-- A worker drains the job queue and publishes one `Result` per job. -/
def runWorker (transport : Job → TransportOutcome) (elapsed : Job → ℤ) (jobs : List Job) :
    List Result :=
  jobs.map (fun j => executeJob transport (elapsed j) j)

/-- Increment the count stored under `k` in an association-list embedding
of a Go map with zero-valued default (`dist[k]++`). -/
def incKey {κ : Type} [DecidableEq κ] : List (κ × ℕ) → κ → List (κ × ℕ)
  | [], k => [(k, 1)]
  | (k', v) :: rest, k =>
    if k = k' then (k', v + 1) :: rest else (k', v) :: incKey rest k

/-- Total number of outcomes recorded in a distribution map. -/
def distSum {κ : Type} (l : List (κ × ℕ)) : ℕ := (l.map Prod.snd).sum

/-- The aggregator state (`report` in `print.go`, equivalently the
statistics fields of `BasicInterface`). -/
structure Report where
  avgTotal : ℚ
  fastest : ℚ
  slowest : ℚ
  errorDist : List (String × ℕ)
  statusCodeDist : List (ℤ × ℕ)
  sizeTotal : ℤ
  histo : NumericHistogram
deriving DecidableEq

/-- Fresh aggregator state (`newReport` / `NewBasicInterface`): zeroed
running statistics and a histogram with 10 bins. -/
def initialReport : Report :=
  { avgTotal := 0, fastest := 0, slowest := 0, errorDist := [],
    statusCodeDist := [], sizeTotal := 0, histo := NumericHistogram.new 10 }

/-- `report.process` / `BasicInterface.ProcessResult` on one `Result`:
an errored outcome only bumps `errorDist`; a successful outcome updates
`slowest`/`fastest` (with 0 as the unset sentinel), feeds the duration in
seconds to the histogram, accumulates `avgTotal`, bumps the status-code
count, and adds a positive content length to `sizeTotal`. -/
def Report.processResult (r : Report) (res : Result) : Report :=
  match res.err with
  | some e => { r with errorDist := incKey r.errorDist e }
  | none =>
    let sec := durSeconds res.duration
    { r with
      slowest := if r.slowest = 0 ∨ sec > r.slowest then sec else r.slowest
      fastest := if r.fastest = 0 ∨ r.fastest > sec then sec else r.fastest
      histo := r.histo.add sec
      avgTotal := r.avgTotal + sec
      statusCodeDist := incKey r.statusCodeDist res.statusCode
      sizeTotal := if res.contentLength > 0 then r.sizeTotal + res.contentLength
                   else r.sizeTotal }

/-- Drain a finite stream of results into the aggregator. -/
def processAll (r : Report) (results : List Result) : Report :=
  results.foldl Report.processResult r

/-! ## The report-printing path -/

/-- The blocks the text report is made of. -/
inductive ReportBlock where
  | summary
  | statusCodes
  | histogramBlock
  | latencies
  | errors
deriving DecidableEq, BEq

/-- Go integer division, which panics (modelled as `none`) on a zero
divisor. -/
def goDiv (a b : ℤ) : Option ℤ := if b = 0 then none else some (a / b)

/-- `printHistogram`: reads `bins[0]` (a panic, modelled as `none`, on an
empty slice), takes the maximum count, and renders one bar per bin, with
the division for the bar length guarded by `max > 0`. -/
def printHistogramBars (bins : List Bin) : Option (List ℕ) :=
  match bins with
  | [] => none
  | b0 :: rest =>
    let mx := rest.foldl (fun m b => if m < b.count then b.count else m) b0.count
    some ((b0 :: rest).map (fun b => if 0 < mx then b.count * 40 / mx else 0))

/-- `report.print` / `BasicInterface.print`: when the histogram holds at
least one sample it prints the summary (with a per-request size division
guarded by `sizeTotal > 0`), the status-code distribution, the histogram
and the latency distribution; when any error was recorded it prints the
error distribution.  `none` models a Go panic in the printing path. -/
def printReport (r : Report) : Option (List ReportBlock) :=
  if 0 < r.histo.total then
    match (if 0 < r.sizeTotal then goDiv r.sizeTotal (r.histo.total : ℤ) else some 0),
        printHistogramBars r.histo.bins with
    | some _, some _ =>
      some ([ReportBlock.summary, ReportBlock.statusCodes, ReportBlock.histogramBlock,
             ReportBlock.latencies] ++
        (if r.errorDist = [] then [] else [ReportBlock.errors]))
    | _, _ => none
  else
    some (if r.errorDist = [] then [] else [ReportBlock.errors])

/-! ## Engine lifecycle (`Boomer`) -/

/-- Engine state: the configuration fields of the Go `Boomer` struct plus
the lifecycle flags.  `stopClosed` models whether the `stop` channel has
been closed. -/
structure Boomer where
  N : ℕ
  C : ℕ
  duration : ℤ
  timeout : ℤ
  running : Bool
  stopClosed : Bool
deriving DecidableEq

/-- `Stop`: a no-op unless the engine is running; otherwise clears
`running` and closes the `stop` channel. -/
def Boomer.stop (b : Boomer) : Boomer :=
  if !b.running then b
  else { b with running := false, stopClosed := true }

/-- The side effects `Run` can start. -/
inductive RunAction where
  | armTimer (d : ℤ)
  | startWorker
  | startTrigger
deriving DecidableEq

/-- `Run`: returns immediately when already running; otherwise sets
`running`, arms the one-shot duration timer when `Duration > 0`, and
starts `C` workers plus the trigger loop (`runWorkers`). -/
def Boomer.run (b : Boomer) : Boomer × List RunAction :=
  if b.running then (b, [])
  else
    ({ b with running := true },
      (if 0 < b.duration then [RunAction.armTimer b.duration] else []) ++
        List.replicate b.C RunAction.startWorker ++ [RunAction.startTrigger])

/-- `WithAmount`: zeroes `Duration` when `n > 0` and sets `N`; it does not
check `running`. -/
def Boomer.withAmount (b : Boomer) (n : ℕ) : Except String Boomer :=
  Except.ok { b with duration := if 0 < n then 0 else b.duration, N := n }

/-- `WithDuration`: panics (modelled as `Except.error`) while running;
otherwise zeroes `N` when `d > 0` and sets `Duration`. -/
def Boomer.withDuration (b : Boomer) (d : ℤ) : Except String Boomer :=
  if b.running then Except.error "Cannot modify boomer while running"
  else Except.ok { b with N := if 0 < d then 0 else b.N, duration := d }

/-- `WithConcurrency`: panics (modelled as `Except.error`) while running;
otherwise sets `C` (and reallocates the buffered results channel, which
has no observable counterpart here). -/
def Boomer.withConcurrency (b : Boomer) (c : ℕ) : Except String Boomer :=
  if b.running then Except.error "Cannot modify boomer while running"
  else Except.ok { b with C := c }

/-! ## Trigger loop in count mode -/

/-- `triggerLoop` in count mode (`Duration == 0`) when the stop channel
never fires and no rate limit is configured (`bucket == nil`, so
`checkRateLimit` returns `nil` and the loop never sleeps): starting from
counter `i`, the loop exits as soon as `i >= N`, otherwise it enqueues one
copy of the request and increments `i`. -/
def triggerLoopFrom (req : Job) (n : ℕ) (i : ℕ) : List Job :=
  if n ≤ i then [] else req :: triggerLoopFrom req n (i + 1)
termination_by n - i
decreasing_by omega

/-- The jobs enqueued by a count-mode, uncancelled, unthrottled run of the
trigger loop, paired with the fact that the deferred `close(b.jobs)`
always runs when the loop returns. -/
structure TriggerOutput where
  jobs : List Job
  jobsClosed : Bool
deriving DecidableEq

/-- A full count-mode trigger-loop run: the counter starts at 0 and the
job queue is closed on exit (`defer close(b.jobs)`). -/
def countModeRun (req : Job) (n : ℕ) : TriggerOutput :=
  { jobs := triggerLoopFrom req n 0, jobsClosed := true }

/-! ## Basic lemmas about the engine embedding -/

theorem triggerLoopFrom_length (req : Job) (n i : ℕ) :
    (triggerLoopFrom req n i).length = n - i := by
  unfold triggerLoopFrom
  split
  · simp; omega
  · rw [List.length_cons, triggerLoopFrom_length]
    omega
termination_by n - i
decreasing_by omega

theorem distSum_incKey {κ : Type} [DecidableEq κ] (l : List (κ × ℕ)) (k : κ) :
    distSum (incKey l k) = distSum l + 1 := by
  induction l with
  | nil => simp [incKey, distSum]
  | cons p rest ih =>
    obtain ⟨k', v⟩ := p
    by_cases h : k = k'
    · simp [incKey, h, distSum]
      omega
    · simp only [incKey, if_neg h, distSum, List.map_cons, List.sum_cons]
      have := ih
      simp only [distSum] at this
      omega

theorem add_total (h : NumericHistogram) (v : ℚ) : (h.add v).total = h.total + 1 := rfl

/-- Draining one result grows `Count() + Σ errorDist` by exactly one. -/
theorem processResult_conservation (r : Report) (res : Result) :
    (r.processResult res).histo.total + distSum (r.processResult res).errorDist
      = r.histo.total + distSum r.errorDist + 1 := by
  unfold Report.processResult
  cases hres : res.err with
  | some e => simp [distSum_incKey]; omega
  | none => simp [add_total]; omega

/-- Draining a finite stream grows `Count() + Σ errorDist` by its length. -/
theorem processAll_conservation (results : List Result) (r : Report) :
    (processAll r results).histo.total + distSum (processAll r results).errorDist
      = r.histo.total + distSum r.errorDist + results.length := by
  induction results generalizing r with
  | nil => simp [processAll]
  | cons res rest ih =>
    have step := processResult_conservation r res
    calc (processAll r (res :: rest)).histo.total
          + distSum (processAll r (res :: rest)).errorDist
        = (processAll (r.processResult res) rest).histo.total
          + distSum (processAll (r.processResult res) rest).errorDist := rfl
      _ = (r.processResult res).histo.total
          + distSum (r.processResult res).errorDist + rest.length := ih _
      _ = r.histo.total + distSum r.errorDist + (res :: rest).length := by
          rw [step]; simp; omega

/-- Draining error-free results grows `Count()` by exactly their number. -/
theorem processAll_success_total (results : List Result) (r : Report)
    (hsucc : ∀ res ∈ results, res.err = none) :
    (processAll r results).histo.total = r.histo.total + results.length := by
  induction results generalizing r with
  | nil => simp [processAll]
  | cons res rest ih =>
    have hres : res.err = none := hsucc res (by simp)
    have step : (r.processResult res).histo.total = r.histo.total + 1 := by
      unfold Report.processResult
      rw [hres]
      simp [add_total]
    calc (processAll r (res :: rest)).histo.total
        = (processAll (r.processResult res) rest).histo.total := rfl
      _ = (r.processResult res).histo.total + rest.length :=
          ih _ (fun x hx => hsucc x (by simp [hx]))
      _ = r.histo.total + (res :: rest).length := by rw [step]; simp; omega

/-! ## Fastest/slowest tracking -/

theorem durSeconds_pos (d : ℤ) (hd : 0 < d) : 0 < durSeconds d := by
  unfold durSeconds
  positivity

/-- The running-minimum update with 0 as the unset sentinel agrees with
`min` once the accumulator is positive. -/
theorem sentinel_min (f s : ℚ) (hf : 0 < f) :
    (if f = 0 ∨ f > s then s else f) = min f s := by
  rcases le_or_lt f s with h | h
  · rw [if_neg, min_eq_left h]
    rintro (h0 | hgt)
    · exact absurd h0 (ne_of_gt hf)
    · exact absurd h (not_le.mpr hgt)
  · rw [if_pos (Or.inr h), min_eq_right h.le]

/-- The running-maximum update with 0 as the unset sentinel agrees with
`max` once the accumulator is positive. -/
theorem sentinel_max (sl s : ℚ) (hs : 0 < sl) :
    (if sl = 0 ∨ s > sl then s else sl) = max sl s := by
  rcases le_or_lt s sl with h | h
  · rw [if_neg, max_eq_left h]
    rintro (h0 | hgt)
    · exact absurd h0 (ne_of_gt hs)
    · exact absurd h (not_le.mpr hgt)
  · rw [if_pos (Or.inr h), max_eq_right h.le]

theorem foldl_min_mem (l : List ℚ) (a : ℚ) : l.foldl min a = a ∨ l.foldl min a ∈ l := by
  induction l generalizing a with
  | nil => left; rfl
  | cons x xs ih =>
    rcases ih (min a x) with h | h
    · rcases min_choice a x with h' | h'
      · left; rw [List.foldl_cons, h, h']
      · right; rw [List.foldl_cons, h, h']; exact List.mem_cons_self x xs
    · right; exact List.mem_cons_of_mem x h

theorem foldl_min_le_init (l : List ℚ) (a : ℚ) : l.foldl min a ≤ a := by
  induction l generalizing a with
  | nil => exact le_refl a
  | cons x xs ih => exact le_trans (ih (min a x)) (min_le_left a x)

theorem foldl_min_le_mem (l : List ℚ) (a : ℚ) : ∀ b ∈ l, l.foldl min a ≤ b := by
  induction l generalizing a with
  | nil => intro b hb; exact absurd hb (List.not_mem_nil b)
  | cons x xs ih =>
    intro b hb
    rcases List.mem_cons.mp hb with rfl | hb
    · exact le_trans (foldl_min_le_init xs (min a b)) (min_le_right a b)
    · exact ih (min a x) b hb

theorem foldl_max_mem (l : List ℚ) (a : ℚ) : l.foldl max a = a ∨ l.foldl max a ∈ l := by
  induction l generalizing a with
  | nil => left; rfl
  | cons x xs ih =>
    rcases ih (max a x) with h | h
    · rcases max_choice a x with h' | h'
      · left; rw [List.foldl_cons, h, h']
      · right; rw [List.foldl_cons, h, h']; exact List.mem_cons_self x xs
    · right; exact List.mem_cons_of_mem x h

theorem foldl_max_ge_init (l : List ℚ) (a : ℚ) : a ≤ l.foldl max a := by
  induction l generalizing a with
  | nil => exact le_refl a
  | cons x xs ih => exact le_trans (le_max_left a x) (ih (max a x))

theorem foldl_max_ge_mem (l : List ℚ) (a : ℚ) : ∀ b ∈ l, b ≤ l.foldl max a := by
  induction l generalizing a with
  | nil => intro b hb; exact absurd hb (List.not_mem_nil b)
  | cons x xs ih =>
    intro b hb
    rcases List.mem_cons.mp hb with rfl | hb
    · exact le_trans (le_max_right a b) (foldl_max_ge_init xs (max a b))
    · exact ih (max a x) b hb

/-- On an error-free, strictly positive stream, a positive `fastest`
accumulator evolves as a fold of `min`, and dually `slowest` as a fold of
`max`. -/
theorem processAll_fastest_slowest (results : List Result) (r : Report)
    (hsucc : ∀ res ∈ results, res.err = none)
    (hpos : ∀ res ∈ results, 0 < res.duration)
    (hf : 0 < r.fastest) (hs : 0 < r.slowest) :
    (processAll r results).fastest
        = (results.map fun res => durSeconds res.duration).foldl min r.fastest
    ∧ (processAll r results).slowest
        = (results.map fun res => durSeconds res.duration).foldl max r.slowest := by
  induction results generalizing r with
  | nil => exact ⟨rfl, rfl⟩
  | cons res rest ih =>
    have hres : res.err = none := hsucc res (by simp)
    have hdur : 0 < durSeconds res.duration := durSeconds_pos _ (hpos res (by simp))
    have hfast : (r.processResult res).fastest = min r.fastest (durSeconds res.duration) := by
      unfold Report.processResult
      rw [hres]
      exact sentinel_min _ _ hf
    have hslow : (r.processResult res).slowest = max r.slowest (durSeconds res.duration) := by
      unfold Report.processResult
      rw [hres]
      exact sentinel_max _ _ hs
    have ihr := ih (r.processResult res)
      (fun x hx => hsucc x (by simp [hx]))
      (fun x hx => hpos x (by simp [hx]))
      (by rw [hfast]; exact lt_min hf hdur)
      (by rw [hslow]; exact lt_of_lt_of_le hs (le_max_left _ _))
    refine ⟨?_, ?_⟩
    · calc (processAll r (res :: rest)).fastest
          = (processAll (r.processResult res) rest).fastest := rfl
        _ = (rest.map fun x => durSeconds x.duration).foldl min
              (r.processResult res).fastest := ihr.1
        _ = ((res :: rest).map fun x => durSeconds x.duration).foldl min r.fastest := by
            rw [hfast]; rfl
    · calc (processAll r (res :: rest)).slowest
          = (processAll (r.processResult res) rest).slowest := rfl
        _ = (rest.map fun x => durSeconds x.duration).foldl max
              (r.processResult res).slowest := ihr.2
        _ = ((res :: rest).map fun x => durSeconds x.duration).foldl max r.slowest := by
            rw [hslow]; rfl

/-! ## Histogram invariants -/

/-- The strict order on bins used by the sortedness invariant. -/
def binLt (a b : Bin) : Prop := a.value < b.value

/-- The ordered sequence of bin centroids. -/
def binValues (l : List Bin) : List ℚ := l.map Bin.value

theorem sumCounts_insertValue (l : List Bin) (v : ℚ) :
    sumCounts (insertValue l v) = sumCounts l + 1 := by
  induction l with
  | nil => simp [insertValue, sumCounts]
  | cons b bs ih =>
    unfold insertValue
    split
    · simp [sumCounts]; omega
    · split
      · simp [sumCounts]; omega
      · simp only [sumCounts, List.map_cons, List.sum_cons] at *
        omega

theorem pos_insertValue (l : List Bin) (v : ℚ) :
    (∀ b ∈ l, 0 < b.count) → ∀ b ∈ insertValue l v, 0 < b.count := by
  induction l with
  | nil =>
    intro _ b hb
    simp [insertValue] at hb
    simp [hb]
  | cons b0 bs ih =>
    intro hpos b hb
    unfold insertValue at hb
    split at hb
    · rcases List.mem_cons.mp hb with rfl | hmem
      · simp
      · exact hpos b hmem
    · split at hb
      · rcases List.mem_cons.mp hb with rfl | hmem
        · simp
        · exact hpos b (List.mem_cons_of_mem b0 hmem)
      · rcases List.mem_cons.mp hb with hbeq | hmem
        · rw [hbeq]
          exact hpos b0 (List.mem_cons_self b0 bs)
        · exact ih (fun x hx => hpos x (List.mem_cons_of_mem b0 hx)) b hmem

theorem mem_binValues_insertValue (l : List Bin) (v w : ℚ) :
    w ∈ binValues (insertValue l v) ↔ w ∈ binValues l ∨ w = v := by
  induction l with
  | nil => simp [insertValue, binValues]
  | cons b bs ih =>
    unfold insertValue
    split
    · show w ∈ binValues ({ value := v, count := 1 } :: b :: bs) ↔ _
      simp only [binValues, List.map_cons, List.mem_cons]
      tauto
    · split
      · rename_i heq
        show w ∈ binValues ({ value := b.value, count := b.count + 1 } :: bs) ↔ _
        simp only [binValues, List.map_cons, List.mem_cons]
        constructor
        · intro h
          exact Or.inl h
        · rintro ((h | h) | rfl)
          · exact Or.inl h
          · exact Or.inr h
          · exact Or.inl heq
      · show w ∈ binValues (b :: insertValue bs v) ↔ _
        simp only [binValues, List.map_cons, List.mem_cons]
        have ih' := ih
        simp only [binValues] at ih'
        rw [ih']
        tauto

theorem pairwise_insertValue (l : List Bin) (v : ℚ) (hs : l.Pairwise binLt) :
    (insertValue l v).Pairwise binLt := by
  induction l with
  | nil => simp [insertValue, binLt]
  | cons b bs ih =>
    rcases List.pairwise_cons.mp hs with ⟨hb, hbs⟩
    unfold insertValue
    split
    · rename_i hlt
      refine List.pairwise_cons.mpr ⟨?_, hs⟩
      intro x hx
      rcases List.mem_cons.mp hx with rfl | hmem
      · exact hlt
      · exact lt_trans hlt (hb x hmem)
    · split
      · exact List.pairwise_cons.mpr ⟨hb, hbs⟩
      · rename_i hlt heq
        have hbv : b.value < v := by
          rcases lt_trichotomy v b.value with h | h | h
          · exact absurd h hlt
          · exact absurd h heq
          · exact h
        refine List.pairwise_cons.mpr ⟨?_, ih hbs⟩
        intro x hx
        have hxv : x.value ∈ binValues (insertValue bs v) :=
          List.mem_map_of_mem Bin.value hx
        rcases (mem_binValues_insertValue bs v x.value).mp hxv with hmem | hxeq
        · rcases List.mem_map.mp hmem with ⟨y, hy, hyv⟩
          have hby := hb y hy
          unfold binLt at *
          rw [← hyv]
          exact hby
        · unfold binLt
          rw [hxeq]
          exact hbv

theorem length_insertValue_le (l : List Bin) (v : ℚ) :
    (insertValue l v).length ≤ l.length + 1 := by
  induction l with
  | nil => simp [insertValue]
  | cons b bs ih =>
    unfold insertValue
    split
    · simp
    · split
      · simp
      · simpa using Nat.succ_le_succ ih

theorem insertValue_ne_nil (l : List Bin) (v : ℚ) : insertValue l v ≠ [] := by
  cases l with
  | nil => simp [insertValue]
  | cons b bs =>
    unfold insertValue
    split
    · simp
    · split <;> simp

theorem length_insertValue_mem (l : List Bin) (v : ℚ) (hs : l.Pairwise binLt)
    (hmem : v ∈ binValues l) : (insertValue l v).length = l.length := by
  induction l with
  | nil => simp [binValues] at hmem
  | cons b bs ih =>
    rcases List.pairwise_cons.mp hs with ⟨hb, hbs⟩
    have hmem' : v = b.value ∨ v ∈ binValues bs := by
      simpa only [binValues, List.map_cons, List.mem_cons] using hmem
    unfold insertValue
    split
    · rename_i hlt
      exfalso
      rcases hmem' with heq | hmem2
      · exact absurd heq (ne_of_lt hlt)
      · rcases List.mem_map.mp hmem2 with ⟨y, hy, hyv⟩
        have hby := hb y hy
        unfold binLt at hby
        rw [hyv] at hby
        exact lt_irrefl v (lt_trans hlt hby)
    · split
      · simp
      · rename_i hlt heq
        have hmem2 : v ∈ binValues bs := by
          rcases hmem' with h | h
          · exact absurd h heq
          · exact h
        simp only [List.length_cons]
        rw [ih hbs hmem2]

theorem length_insertValue_not_mem (l : List Bin) (v : ℚ)
    (hmem : v ∉ binValues l) : (insertValue l v).length = l.length + 1 := by
  induction l with
  | nil => simp [insertValue]
  | cons b bs ih =>
    have hne : v ≠ b.value := by
      intro h
      exact hmem (by rw [h]; exact List.mem_cons_self b.value (binValues bs))
    have hmem' : v ∉ binValues bs := fun h => hmem (List.mem_cons_of_mem b.value h)
    unfold insertValue
    rcases lt_trichotomy v b.value with hlt | heq | hgt
    · rw [if_pos hlt]
      simp
    · exact absurd heq hne
    · rw [if_neg (lt_asymm hgt), if_neg hne]
      simp only [List.length_cons]
      rw [ih hmem']

theorem argminFrom_cases (xs : List ℚ) :
    ∀ (best : ℚ) (bestIdx idx : ℕ),
      argminFrom best bestIdx idx xs = bestIdx ∨
        (idx ≤ argminFrom best bestIdx idx xs ∧
          argminFrom best bestIdx idx xs < idx + xs.length) := by
  induction xs with
  | nil =>
    intro best bestIdx idx
    left
    rfl
  | cons x xs ih =>
    intro best bestIdx idx
    unfold argminFrom
    split
    · rcases ih x idx (idx + 1) with h | ⟨h1, h2⟩
      · right
        rw [h]
        simp only [List.length_cons]
        omega
      · right
        simp only [List.length_cons]
        omega
    · rcases ih best bestIdx (idx + 1) with h | ⟨h1, h2⟩
      · left
        exact h
      · right
        simp only [List.length_cons]
        omega

theorem minGapIndex_lt (l : List Bin) (hl : 2 ≤ l.length) :
    minGapIndex l + 1 < l.length := by
  have hlen : (gaps l).length = l.length - 1 := by
    unfold gaps
    rw [List.length_zipWith, List.length_tail]
    omega
  cases hg : gaps l with
  | nil =>
    rw [hg] at hlen
    simp at hlen
    omega
  | cons g gs =>
    have hred : minGapIndex l = argminFrom g 0 1 gs := by
      unfold minGapIndex
      rw [hg]
    rw [hg] at hlen
    simp only [List.length_cons] at hlen
    rw [hred]
    rcases argminFrom_cases gs g 0 1 with h | ⟨h1, h2⟩ <;> omega

theorem mergeAt_single (b : Bin) (i : ℕ) : mergeAt [b] i = [b] := by
  cases i <;> rfl

theorem mergeAt_zero (b1 b2 : Bin) (bs : List Bin) :
    mergeAt (b1 :: b2 :: bs) 0 = mergePair b1 b2 :: bs := rfl

theorem mergeAt_succ (b : Bin) (bs : List Bin) (n : ℕ) :
    mergeAt (b :: bs) (n + 1) = b :: mergeAt bs n := by
  cases bs <;> rfl

theorem sumCounts_mergeAt (l : List Bin) : ∀ i, sumCounts (mergeAt l i) = sumCounts l := by
  induction l with
  | nil => intro i; rfl
  | cons b bs ih =>
    intro i
    cases i with
    | zero =>
      cases bs with
      | nil => rfl
      | cons b2 rest =>
        rw [mergeAt_zero]
        simp only [sumCounts, mergePair, List.map_cons, List.sum_cons]
        omega
    | succ n =>
      rw [mergeAt_succ]
      simp only [sumCounts, List.map_cons, List.sum_cons]
      have := ih n
      simp only [sumCounts] at this
      omega

theorem length_mergeAt (l : List Bin) : ∀ i, i + 1 < l.length →
    (mergeAt l i).length + 1 = l.length := by
  induction l with
  | nil => intro i h; simp at h
  | cons b bs ih =>
    intro i h
    cases i with
    | zero =>
      cases bs with
      | nil => simp at h
      | cons b2 rest =>
        rw [mergeAt_zero]
        simp
    | succ n =>
      rw [mergeAt_succ]
      have hn : n + 1 < bs.length := by
        simp only [List.length_cons] at h
        omega
      have := ih n hn
      simp only [List.length_cons]
      omega

theorem pos_mergeAt (l : List Bin) : ∀ i, (∀ b ∈ l, 0 < b.count) →
    ∀ b ∈ mergeAt l i, 0 < b.count := by
  induction l with
  | nil => intro i _ b hb; exact absurd hb (List.not_mem_nil b)
  | cons b0 bs ih =>
    intro i hpos b hb
    cases i with
    | zero =>
      cases bs with
      | nil => exact hpos b hb
      | cons b2 rest =>
        rw [mergeAt_zero] at hb
        rcases List.mem_cons.mp hb with hbeq | hmem
        · rw [hbeq]
          show 0 < (mergePair b0 b2).count
          have h0 := hpos b0 (List.mem_cons_self b0 (b2 :: rest))
          unfold mergePair
          simp only
          omega
        · exact hpos b (List.mem_cons_of_mem b0 (List.mem_cons_of_mem b2 hmem))
    | succ n =>
      rw [mergeAt_succ] at hb
      rcases List.mem_cons.mp hb with hbeq | hmem
      · rw [hbeq]
        exact hpos b0 (List.mem_cons_self b0 bs)
      · exact ih n (fun x hx => hpos x (List.mem_cons_of_mem b0 hx)) b hmem

theorem mergePair_value_gt (a b : Bin) (c : ℚ) (ha : 0 < a.count) (hb : 0 < b.count)
    (hca : c < a.value) (hcb : c < b.value) : c < (mergePair a b).value := by
  have haq : (0 : ℚ) < (a.count : ℚ) := Nat.cast_pos.mpr ha
  have hbq : (0 : ℚ) < (b.count : ℚ) := Nat.cast_pos.mpr hb
  unfold mergePair
  simp only
  rw [lt_div_iff (by linarith)]
  nlinarith [mul_lt_mul_of_pos_right hca haq, mul_lt_mul_of_pos_right hcb hbq]

theorem mergePair_value_between (a b : Bin) (ha : 0 < a.count) (hb : 0 < b.count)
    (hab : a.value < b.value) :
    a.value < (mergePair a b).value ∧ (mergePair a b).value < b.value := by
  have haq : (0 : ℚ) < (a.count : ℚ) := Nat.cast_pos.mpr ha
  have hbq : (0 : ℚ) < (b.count : ℚ) := Nat.cast_pos.mpr hb
  constructor
  · unfold mergePair
    simp only
    rw [lt_div_iff (by linarith)]
    nlinarith [mul_lt_mul_of_pos_right hab hbq]
  · unfold mergePair
    simp only
    rw [div_lt_iff (by linarith)]
    nlinarith [mul_lt_mul_of_pos_right hab haq]

theorem mergeAt_lower_bound (l : List Bin) : ∀ (i : ℕ) (c : ℚ),
    (∀ x ∈ l, 0 < x.count) → (∀ x ∈ l, c < x.value) →
    ∀ x ∈ mergeAt l i, c < x.value := by
  induction l with
  | nil => intro i c _ _ x hx; exact absurd hx (List.not_mem_nil x)
  | cons b0 bs ih =>
    intro i c hpos hlb x hx
    cases i with
    | zero =>
      cases bs with
      | nil => exact hlb x hx
      | cons b2 rest =>
        rw [mergeAt_zero] at hx
        rcases List.mem_cons.mp hx with hxeq | hmem
        · rw [hxeq]
          exact mergePair_value_gt b0 b2 c
            (hpos b0 (List.mem_cons_self b0 (b2 :: rest)))
            (hpos b2 (List.mem_cons_of_mem b0 (List.mem_cons_self b2 rest)))
            (hlb b0 (List.mem_cons_self b0 (b2 :: rest)))
            (hlb b2 (List.mem_cons_of_mem b0 (List.mem_cons_self b2 rest)))
        · exact hlb x (List.mem_cons_of_mem b0 (List.mem_cons_of_mem b2 hmem))
    | succ n =>
      rw [mergeAt_succ] at hx
      rcases List.mem_cons.mp hx with hxeq | hmem
      · rw [hxeq]
        exact hlb b0 (List.mem_cons_self b0 bs)
      · exact ih n c (fun y hy => hpos y (List.mem_cons_of_mem b0 hy))
          (fun y hy => hlb y (List.mem_cons_of_mem b0 hy)) x hmem

theorem pairwise_mergeAt (l : List Bin) : ∀ i, (∀ x ∈ l, 0 < x.count) →
    l.Pairwise binLt → (mergeAt l i).Pairwise binLt := by
  induction l with
  | nil => intro i _ _; simp [mergeAt]
  | cons b0 bs ih =>
    intro i hpos hs
    rcases List.pairwise_cons.mp hs with ⟨hb, hbs⟩
    cases i with
    | zero =>
      cases bs with
      | nil => exact hs
      | cons b2 rest =>
        rw [mergeAt_zero]
        rcases List.pairwise_cons.mp hbs with ⟨hb2, hrest⟩
        have hbetween := mergePair_value_between b0 b2
          (hpos b0 (List.mem_cons_self b0 (b2 :: rest)))
          (hpos b2 (List.mem_cons_of_mem b0 (List.mem_cons_self b2 rest)))
          (hb b2 (List.mem_cons_self b2 rest))
        refine List.pairwise_cons.mpr ⟨?_, hrest⟩
        intro x hx
        unfold binLt
        exact lt_trans hbetween.2 (hb2 x hx)
    | succ n =>
      rw [mergeAt_succ]
      refine List.pairwise_cons.mpr ⟨?_, ih n
        (fun y hy => hpos y (List.mem_cons_of_mem b0 hy)) hbs⟩
      intro x hx
      exact mergeAt_lower_bound bs n b0.value
        (fun y hy => hpos y (List.mem_cons_of_mem b0 hy)) (fun y hy => hb y hy) x hx

/-! ### The histogram well-formedness invariant -/

/-- Well-formedness of a histogram state: at least one bin of capacity,
strictly increasing centroids, positive bin counts, total equal to the sum
of the counts, and at most `maxBins` bins. -/
structure HWF (h : NumericHistogram) : Prop where
  kpos : 1 ≤ h.maxBins
  sorted : h.bins.Pairwise binLt
  pos : ∀ b ∈ h.bins, 0 < b.count
  tot : sumCounts h.bins = h.total
  lenLe : h.bins.length ≤ h.maxBins

theorem HWF_new (k : ℕ) (hk : 1 ≤ k) : HWF (NumericHistogram.new k) := by
  refine ⟨hk, ?_, ?_, ?_, ?_⟩
  · exact List.Pairwise.nil
  · intro b hb; exact absurd hb (List.not_mem_nil b)
  · rfl
  · simp [NumericHistogram.new]

theorem HWF_add (h : NumericHistogram) (v : ℚ) (hwf : HWF h) : HWF (h.add v) := by
  have hsorted := pairwise_insertValue h.bins v hwf.sorted
  have hpos := pos_insertValue h.bins v hwf.pos
  have hsum : sumCounts (insertValue h.bins v) = h.total + 1 := by
    rw [sumCounts_insertValue, hwf.tot]
  have hlen := length_insertValue_le h.bins v
  unfold NumericHistogram.add
  by_cases hover : h.maxBins < (insertValue h.bins v).length
  · have h2 : 2 ≤ (insertValue h.bins v).length := by
      have := hwf.kpos
      omega
    have hvalid := minGapIndex_lt (insertValue h.bins v) h2
    refine ⟨hwf.kpos, ?_, ?_, ?_, ?_⟩
    · simp only [if_pos hover]
      exact pairwise_mergeAt _ _ hpos hsorted
    · simp only [if_pos hover]
      exact pos_mergeAt _ _ hpos
    · simp only [if_pos hover]
      rw [sumCounts_mergeAt]
      exact hsum
    · simp only [if_pos hover]
      have := length_mergeAt (insertValue h.bins v) (minGapIndex (insertValue h.bins v))
        hvalid
      have hle := hwf.lenLe
      omega
  · refine ⟨hwf.kpos, ?_, ?_, ?_, ?_⟩
    · simp only [if_neg hover]
      exact hsorted
    · simp only [if_neg hover]
      exact hpos
    · simp only [if_neg hover]
      exact hsum
    · simp only [if_neg hover]
      omega

/-! ### Quantile boundary behavior -/

theorem sumCounts_cons (b : Bin) (bs : List Bin) :
    sumCounts (b :: bs) = b.count + sumCounts bs := by
  simp [sumCounts]

/-- `Quantile(0)` always clamps to 0: the target rank 0 lies below the
half-count center of the first bin. -/
theorem quantile_zero (h : NumericHistogram) : h.quantile 0 = 0 := by
  unfold NumericHistogram.quantile
  split
  · rfl
  · cases hb : h.bins with
    | nil => rfl
    | cons b bs =>
      unfold quantileAux
      rw [if_pos]
      simp only [zero_mul, zero_add]
      positivity

/-- Past-the-end walk: once the target rank equals the full remaining
mass, every comparison against a half-count center fails and the walk
falls off the end, returning the 0 clamp. -/
theorem quantileAux_past_end (l : List Bin) : ∀ (cum t : ℚ) (prev : Option (ℚ × ℚ)),
    (∀ b ∈ l, 0 < b.count) → t = cum + (sumCounts l : ℚ) →
    quantileAux t cum prev l = 0 := by
  induction l with
  | nil => intro cum t prev _ _; rfl
  | cons b bs ih =>
    intro cum t prev hpos ht
    unfold quantileAux
    rw [if_neg]
    · exact ih (cum + (b.count : ℚ)) t _
        (fun x hx => hpos x (List.mem_cons_of_mem b hx))
        (by rw [ht, sumCounts_cons]; push_cast; ring)
    · rw [not_le, ht, sumCounts_cons]
      have h1 : (0 : ℚ) ≤ (sumCounts bs : ℚ) := Nat.cast_nonneg _
      have h2 : (0 : ℚ) < (b.count : ℚ) :=
        Nat.cast_pos.mpr (hpos b (List.mem_cons_self b bs))
      push_cast
      linarith

/-- `Quantile(1)` always clamps to 0 on a well-formed histogram: the
target rank `Count()` lies above the half-count center of the last bin. -/
theorem quantile_one (h : NumericHistogram) (hpos : ∀ b ∈ h.bins, 0 < b.count)
    (htot : sumCounts h.bins = h.total) : h.quantile 1 = 0 := by
  unfold NumericHistogram.quantile
  split
  · rfl
  · apply quantileAux_past_end h.bins 0 _ none hpos
    rw [← htot]
    ring

/-! ### Distinct-value bin accounting -/

theorem add_bins (h : NumericHistogram) (v : ℚ) :
    (h.add v).bins =
      if h.maxBins < (insertValue h.bins v).length then
        mergeAt (insertValue h.bins v) (minGapIndex (insertValue h.bins v))
      else insertValue h.bins v := rfl

theorem add_maxBins (h : NumericHistogram) (v : ℚ) : (h.add v).maxBins = h.maxBins := rfl

theorem toFinset_binValues_insertValue (l : List Bin) (v : ℚ) :
    (binValues (insertValue l v)).toFinset = insert v (binValues l).toFinset := by
  ext w
  simp only [List.mem_toFinset, Finset.mem_insert]
  rw [mem_binValues_insertValue]
  tauto

theorem toFinset_append_singleton (seen : List ℚ) (v : ℚ) :
    (seen ++ [v]).toFinset = insert v seen.toFinset := by
  ext w
  simp only [List.toFinset_append, Finset.mem_union, List.mem_toFinset,
    List.mem_singleton, Finset.mem_insert]
  tauto

/-- While the bin list is full, `Add` keeps it exactly full: an insert
that grows it past capacity is immediately followed by one adjacent
merge. -/
theorem add_length_stable (h : NumericHistogram) (v : ℚ) (hwf : HWF h)
    (hfull : h.bins.length = h.maxBins) : (h.add v).bins.length = h.maxBins := by
  rw [add_bins]
  by_cases hmem : v ∈ binValues h.bins
  · have hlen := length_insertValue_mem h.bins v hwf.sorted hmem
    rw [if_neg (by omega)]
    omega
  · have hlen := length_insertValue_not_mem h.bins v hmem
    have hover : h.maxBins < (insertValue h.bins v).length := by omega
    rw [if_pos hover]
    have h2 : 2 ≤ (insertValue h.bins v).length := by
      have := hwf.kpos
      omega
    have := length_mergeAt _ (minGapIndex (insertValue h.bins v)) (minGapIndex_lt _ h2)
    omega

/-- "One bin per distinct value" phase: the bin centroids are exactly the
distinct values seen so far. -/
def distinctPhase (h : NumericHistogram) (seen : List ℚ) : Prop :=
  (binValues h.bins).toFinset = seen.toFinset ∧ h.bins.length = seen.toFinset.card

/-- One `Add` either keeps the one-bin-per-distinct-value phase, or the
distinct count has just exceeded the capacity and the bin list is full. -/
theorem distinct_step (h : NumericHistogram) (v : ℚ) (seen : List ℚ) (hwf : HWF h)
    (hp : distinctPhase h seen) :
    distinctPhase (h.add v) (seen ++ [v]) ∨
      ((h.add v).bins.length = h.maxBins ∧ h.maxBins < (seen ++ [v]).toFinset.card) := by
  obtain ⟨hvals, hlen⟩ := hp
  by_cases hmem : v ∈ binValues h.bins
  · left
    have hvmem : v ∈ seen.toFinset := by
      rw [← hvals]
      exact List.mem_toFinset.mpr hmem
    have hins := length_insertValue_mem h.bins v hwf.sorted hmem
    have hnotover : ¬ h.maxBins < (insertValue h.bins v).length := by
      have := hwf.lenLe
      omega
    constructor
    · rw [add_bins, if_neg hnotover, toFinset_binValues_insertValue, hvals,
        toFinset_append_singleton]
    · rw [add_bins, if_neg hnotover, hins, hlen, toFinset_append_singleton,
        Finset.insert_eq_self.mpr hvmem]
  · have hvnot : v ∉ seen.toFinset := by
      rw [← hvals]
      exact fun hc => hmem (List.mem_toFinset.mp hc)
    have hcard : (insert v seen.toFinset).card = seen.toFinset.card + 1 :=
      Finset.card_insert_of_not_mem hvnot
    have hins := length_insertValue_not_mem h.bins v hmem
    by_cases hover : h.maxBins < (insertValue h.bins v).length
    · right
      have h2 : 2 ≤ (insertValue h.bins v).length := by
        have := hwf.kpos
        omega
      have hm := length_mergeAt _ (minGapIndex (insertValue h.bins v)) (minGapIndex_lt _ h2)
      have hle := hwf.lenLe
      constructor
      · rw [add_bins, if_pos hover]
        omega
      · rw [toFinset_append_singleton, hcard]
        omega
    · left
      constructor
      · rw [add_bins, if_neg hover, toFinset_binValues_insertValue, hvals,
          toFinset_append_singleton]
      · rw [add_bins, if_neg hover, hins, hlen, toFinset_append_singleton, hcard]

/-- Folding a stream of samples preserves well-formedness and the
phase disjunction: either the bin list is full and more distinct values
than the capacity have been seen, or there is one bin per distinct value. -/
theorem addAll_aux (vs : List ℚ) : ∀ (h : NumericHistogram) (seen : List ℚ),
    HWF h →
    (((h.bins.length = h.maxBins ∧ h.maxBins < seen.toFinset.card) ∨ distinctPhase h seen)) →
    HWF (vs.foldl NumericHistogram.add h) ∧
    (vs.foldl NumericHistogram.add h).maxBins = h.maxBins ∧
    (((vs.foldl NumericHistogram.add h).bins.length = h.maxBins ∧
        h.maxBins < (seen ++ vs).toFinset.card) ∨
      distinctPhase (vs.foldl NumericHistogram.add h) (seen ++ vs)) := by
  induction vs with
  | nil =>
    intro h seen hwf hp
    refine ⟨hwf, rfl, ?_⟩
    simpa using hp
  | cons v rest ih =>
    intro h seen hwf hp
    have hwf' := HWF_add h v hwf
    have hp' : ((h.add v).bins.length = (h.add v).maxBins ∧
        (h.add v).maxBins < (seen ++ [v]).toFinset.card) ∨
        distinctPhase (h.add v) (seen ++ [v]) := by
      rcases hp with ⟨hfull, hcard⟩ | hph
      · left
        rw [add_maxBins]
        refine ⟨add_length_stable h v hwf hfull, ?_⟩
        have hsub : seen.toFinset ⊆ (seen ++ [v]).toFinset := by
          intro w hw
          rw [toFinset_append_singleton]
          exact Finset.mem_insert_of_mem hw
        have := Finset.card_le_card hsub
        omega
      · rcases distinct_step h v seen hwf hph with hleft | hright
        · right
          exact hleft
        · left
          rw [add_maxBins]
          exact hright
    have := ih (h.add v) (seen ++ [v]) hwf' hp'
    rw [List.append_assoc] at this
    simpa [add_maxBins] using this

theorem addAll_total (k : ℕ) (vs : List ℚ) : (addAll k vs).total = vs.length := by
  suffices h : ∀ (h0 : NumericHistogram), (vs.foldl NumericHistogram.add h0).total
      = h0.total + vs.length by
    have := h (NumericHistogram.new k)
    simpa [addAll, NumericHistogram.new] using this
  induction vs with
  | nil => intro h0; simp
  | cons v rest ih =>
    intro h0
    have := ih (h0.add v)
    simp only [List.foldl_cons, List.length_cons]
    rw [this, add_total]
    omega

theorem distinctPhase_new (k : ℕ) : distinctPhase (NumericHistogram.new k) [] := by
  constructor
  · simp [binValues, NumericHistogram.new]
  · simp [NumericHistogram.new]

theorem HWF_addAll (k : ℕ) (hk : 1 ≤ k) (vs : List ℚ) : HWF (addAll k vs) := by
  exact (addAll_aux vs (NumericHistogram.new k) [] (HWF_new k hk)
    (Or.inr (distinctPhase_new k))).1

/-- Adding at most `k` distinct values never merges: one bin per distinct
value. -/
theorem addAll_card_le (k : ℕ) (hk : 1 ≤ k) (vs : List ℚ)
    (hcard : vs.toFinset.card ≤ k) :
    (addAll k vs).bins.length = vs.toFinset.card ∧
      (binValues (addAll k vs).bins).toFinset = vs.toFinset := by
  have H := addAll_aux vs (NumericHistogram.new k) [] (HWF_new k hk)
    (Or.inr (distinctPhase_new k))
  rcases H.2.2 with ⟨_, hcardgt⟩ | hph
  · exfalso
    have hmb : (NumericHistogram.new k).maxBins = k := rfl
    rw [hmb, List.nil_append] at hcardgt
    omega
  · obtain ⟨hvals, hlen⟩ := hph
    simp only [List.nil_append] at hvals hlen
    exact ⟨hlen, hvals⟩

/-- Adding more than `k` distinct values leaves exactly `k` bins. -/
theorem addAll_card_gt (k : ℕ) (hk : 1 ≤ k) (vs : List ℚ)
    (hcard : k < vs.toFinset.card) :
    (addAll k vs).bins.length = k := by
  have H := addAll_aux vs (NumericHistogram.new k) [] (HWF_new k hk)
    (Or.inr (distinctPhase_new k))
  have hmb : (NumericHistogram.new k).maxBins = k := rfl
  rcases H.2.2 with ⟨hfull, _⟩ | hph
  · rw [hmb] at hfull
    exact hfull
  · exfalso
    obtain ⟨_, hlen⟩ := hph
    simp only [List.nil_append] at hlen
    have hle := H.1.lenLe
    rw [H.2.1, hmb] at hle
    omega

/-! ### Aggregator state well-formedness and the printing path -/

theorem processResult_histo_wf (r : Report) (res : Result) (hwf : HWF r.histo) :
    HWF (r.processResult res).histo := by
  unfold Report.processResult
  cases res.err with
  | some e => exact hwf
  | none => exact HWF_add _ _ hwf

theorem processAll_histo_wf (results : List Result) : ∀ (r : Report), HWF r.histo →
    HWF (processAll r results).histo := by
  induction results with
  | nil => intro r hwf; exact hwf
  | cons res rest ih =>
    intro r hwf
    exact ih (r.processResult res) (processResult_histo_wf r res hwf)

theorem initialReport_histo_wf : HWF initialReport.histo := HWF_new 10 (by omega)

theorem printReport_total_zero (r : Report) (h0 : r.histo.total = 0) :
    printReport r = some (if r.errorDist = [] then [] else [ReportBlock.errors]) := by
  unfold printReport
  rw [if_neg (by omega)]

theorem printReport_total_pos (r : Report) (hwf : HWF r.histo)
    (hpos : 0 < r.histo.total) :
    printReport r = some ([ReportBlock.summary, ReportBlock.statusCodes,
      ReportBlock.histogramBlock, ReportBlock.latencies] ++
        (if r.errorDist = [] then [] else [ReportBlock.errors])) := by
  unfold printReport
  rw [if_pos hpos]
  have hbins : r.histo.bins ≠ [] := by
    intro hnil
    have htot := hwf.tot
    rw [hnil] at htot
    simp [sumCounts] at htot
    omega
  obtain ⟨b0, rest, hbe⟩ : ∃ b0 rest, r.histo.bins = b0 :: rest := by
    cases hb : r.histo.bins with
    | nil => exact absurd hb hbins
    | cons a l => exact ⟨a, l, rfl⟩
  rw [hbe]
  have hbars : printHistogramBars (b0 :: rest) =
      some ((b0 :: rest).map (fun b =>
        if 0 < rest.foldl (fun m x => if m < x.count then x.count else m) b0.count then
          b.count * 40 / rest.foldl (fun m x => if m < x.count then x.count else m) b0.count
        else 0)) := rfl
  by_cases hsz : 0 < r.sizeTotal
  · rw [if_pos hsz]
    unfold goDiv
    rw [if_neg (Int.natCast_ne_zero.mpr (Nat.pos_iff_ne_zero.mp hpos)), hbars]
  · rw [if_neg hsz, hbars]

theorem addAll_maxBins (k : ℕ) (vs : List ℚ) : (addAll k vs).maxBins = k := by
  suffices h : ∀ h0 : NumericHistogram,
      (vs.foldl NumericHistogram.add h0).maxBins = h0.maxBins by
    exact (h (NumericHistogram.new k)).trans rfl
  induction vs with
  | nil => intro h0; rfl
  | cons v rest ih =>
    intro h0
    exact (ih (h0.add v)).trans (add_maxBins h0 v)

/-! ## Claims -/

/-- C1: in count mode (`Duration == 0`) with no cancellation signal and no
rate limit, the trigger loop enqueues exactly `N` jobs and closes the job
queue; with an always-succeeding transport the aggregator's histogram
count equals exactly `N` after the whole stream is drained, and for
`N == 0` no job is dispatched at all. -/
theorem count_mode_dispatches_exactly_N (N : ℕ) (req : Job)
    (t : Job → ℤ × ℤ) (elapsed : Job → ℤ) :
    (countModeRun req N).jobs.length = N
    ∧ (countModeRun req N).jobsClosed = true
    ∧ (processAll initialReport (runWorker
        (fun j => TransportOutcome.ok (t j).1 (t j).2) elapsed
        (countModeRun req N).jobs)).histo.total = N
    ∧ (countModeRun req 0).jobs = [] := by
  have hlen : (countModeRun req N).jobs.length = N := by
    show (triggerLoopFrom req N 0).length = N
    simpa using triggerLoopFrom_length req N 0
  refine ⟨hlen, rfl, ?_, ?_⟩
  · have hsucc : ∀ res ∈ runWorker (fun j => TransportOutcome.ok (t j).1 (t j).2)
        elapsed (countModeRun req N).jobs, res.err = none := by
      intro res hres
      unfold runWorker at hres
      rcases List.mem_map.mp hres with ⟨j, _, hjeq⟩
      rw [← hjeq]
      rfl
    rw [processAll_success_total _ _ hsucc]
    show 0 + (runWorker _ _ (countModeRun req N).jobs).length = N
    unfold runWorker
    rw [List.length_map, hlen]
    omega
  · show triggerLoopFrom req 0 0 = []
    unfold triggerLoopFrom
    simp

/-- C2: each worker publishes exactly one `Result` per job it takes, and
for any finite stream of results the histogram count plus the total of
the error distribution equals the stream length, independent of order. -/
theorem outcome_count_invariant (jobs : List Job) (transport : Job → TransportOutcome)
    (elapsed : Job → ℤ) (results : List Result) :
    (runWorker transport elapsed jobs).length = jobs.length
    ∧ (processAll initialReport results).histo.total
        + distSum (processAll initialReport results).errorDist = results.length := by
  constructor
  · unfold runWorker
    exact List.length_map jobs _
  · have := processAll_conservation results initialReport
    simpa [initialReport, NumericHistogram.new, distSum] using this

/-- C4: a failed transport call yields an Outcome with status code 0,
content length 0 and the error recorded; a successful call yields the
response's status code and content length with no error. -/
theorem worker_outcome_fields (transport : Job → TransportOutcome) (elapsed : ℤ)
    (j : Job) (m : String) (code size : ℤ) :
    (transport j = TransportOutcome.err m →
      executeJob transport elapsed j =
        { err := some m, statusCode := 0, duration := elapsed, contentLength := 0 })
    ∧ (transport j = TransportOutcome.ok code size →
      executeJob transport elapsed j =
        { err := none, statusCode := code, duration := elapsed, contentLength := size }) := by
  constructor
  · intro h
    unfold executeJob
    rw [h]
  · intro h
    unfold executeJob
    rw [h]

/-- C4 witness: both branches evaluated at a concrete transport. -/
theorem worker_outcome_fields_witness :
    executeJob (fun _ => TransportOutcome.err "connection refused") 7 0
      = { err := some "connection refused", statusCode := 0, duration := 7, contentLength := 0 }
    ∧ executeJob (fun _ => TransportOutcome.ok 200 5) 7 0
      = { err := none, statusCode := 200, duration := 7, contentLength := 5 } :=
  ⟨(worker_outcome_fields (fun _ => TransportOutcome.err "connection refused")
      7 0 "connection refused" 200 5).1 rfl,
   (worker_outcome_fields (fun _ => TransportOutcome.ok 200 5)
      7 0 "connection refused" 200 5).2 rfl⟩

/-- C5: the first effective `Stop` clears `running` and closes the stop
channel; `Stop` on a non-running engine changes nothing, so a second
`Stop` is always a no-op (`Stop` is idempotent). -/
theorem stop_idempotent (b : Boomer) :
    Boomer.stop (Boomer.stop b) = Boomer.stop b
    ∧ (b.running = true →
        Boomer.stop b = { b with running := false, stopClosed := true })
    ∧ (b.running = false → Boomer.stop b = b) := by
  cases hb : b.running <;> simp [Boomer.stop, hb]

/-- A concrete engine state that is mid-run. -/
def bRunning : Boomer :=
  { N := 10, C := 2, duration := 0, timeout := 0, running := true, stopClosed := false }

/-- A concrete engine state that has not started. -/
def bIdle : Boomer :=
  { N := 10, C := 2, duration := 0, timeout := 0, running := false, stopClosed := false }

/-- The state `bRunning` reaches after one effective `Stop`. -/
def bStopped : Boomer :=
  { N := 10, C := 2, duration := 0, timeout := 0, running := false, stopClosed := true }

/-- C5 witness: `Stop` evaluated on a running and on an idle engine. -/
theorem stop_idempotent_witness :
    Boomer.stop (Boomer.stop bRunning) = Boomer.stop bRunning
    ∧ Boomer.stop bRunning = bStopped
    ∧ Boomer.stop bIdle = bIdle :=
  ⟨(stop_idempotent bRunning).1, (stop_idempotent bRunning).2.1 rfl,
   (stop_idempotent bIdle).2.2 rfl⟩

/-- C6: the report printing path never fails on any drained stream; with
a zero-sample histogram the summary, status-code, histogram and latency
blocks are all omitted, and with an empty error distribution the error
block is omitted. -/
theorem aggregator_never_fails (results : List Result) :
    (printReport (processAll initialReport results)).isSome = true
    ∧ ((processAll initialReport results).histo.total = 0 →
        ((printReport (processAll initialReport results)).getD []).contains
            ReportBlock.summary = false
        ∧ ((printReport (processAll initialReport results)).getD []).contains
            ReportBlock.statusCodes = false
        ∧ ((printReport (processAll initialReport results)).getD []).contains
            ReportBlock.histogramBlock = false
        ∧ ((printReport (processAll initialReport results)).getD []).contains
            ReportBlock.latencies = false)
    ∧ ((processAll initialReport results).errorDist = [] →
        ((printReport (processAll initialReport results)).getD []).contains
          ReportBlock.errors = false) := by
  have hwf := processAll_histo_wf results initialReport initialReport_histo_wf
  by_cases h0 : (processAll initialReport results).histo.total = 0
  · rw [printReport_total_zero _ h0]
    refine ⟨rfl, fun _ => ?_, fun herr => ?_⟩
    · by_cases herr : (processAll initialReport results).errorDist = []
      · rw [if_pos herr]
        exact ⟨rfl, rfl, rfl, rfl⟩
      · rw [if_neg herr]
        exact ⟨rfl, rfl, rfl, rfl⟩
    · rw [if_pos herr]
      rfl
  · have hpos : 0 < (processAll initialReport results).histo.total :=
      Nat.pos_of_ne_zero h0
    rw [printReport_total_pos _ hwf hpos]
    refine ⟨rfl, fun hcontr => absurd hcontr h0, fun herr => ?_⟩
    rw [if_pos herr]
    rfl

/-- C6 witness: the empty stream prints an empty report with no panic. -/
theorem aggregator_never_fails_witness :
    (printReport (processAll initialReport [])).isSome = true
    ∧ ((printReport (processAll initialReport [])).getD []).contains
        ReportBlock.summary = false
    ∧ ((printReport (processAll initialReport [])).getD []).contains
        ReportBlock.errors = false :=
  ⟨(aggregator_never_fails []).1,
   ((aggregator_never_fails []).2.1 rfl).1,
   (aggregator_never_fails []).2.2 rfl⟩

/-- C7 counterexample: after inserting the single value 1, the minimum
(and maximum) inserted value is 1, yet `Quantile(0)` clamps to 0, which
lies below that minimum — so `Quantile(0)` does not stay within
`[min inserted, max inserted]`. -/
theorem quantile_outside_min_max_cex :
    ((NumericHistogram.new 10).add 1).quantile 0 < 1 := by
  rw [quantile_zero]
  norm_num

/-- C7 (amended): after any stream of `Add`s into a fresh histogram of
capacity `K ≥ 1`: at most `K` bins, strictly increasing bin values, bin
counts summing to the number of samples added; at most `K` distinct
values never merge (one bin per distinct value) and more than `K`
distinct values leave exactly `K` bins; but `Quantile(0)` and
`Quantile(1)` both return the boundary clamp 0 instead of staying within
the inserted range. -/
theorem histogram_invariants (K : ℕ) (hK : 1 ≤ K) (vs : List ℚ) :
    (addAll K vs).bins.length ≤ K
    ∧ (addAll K vs).bins.Pairwise binLt
    ∧ sumCounts (addAll K vs).bins = vs.length
    ∧ (vs.toFinset.card ≤ K →
        (addAll K vs).bins.length = vs.toFinset.card
        ∧ (binValues (addAll K vs).bins).toFinset = vs.toFinset)
    ∧ (K < vs.toFinset.card → (addAll K vs).bins.length = K)
    ∧ (addAll K vs).quantile 0 = 0
    ∧ (addAll K vs).quantile 1 = 0 := by
  have hwf := HWF_addAll K hK vs
  have hmb := addAll_maxBins K vs
  refine ⟨?_, hwf.sorted, ?_, addAll_card_le K hK vs, addAll_card_gt K hK vs,
    quantile_zero _, quantile_one _ hwf.pos hwf.tot⟩
  · have := hwf.lenLe
    omega
  · rw [hwf.tot, addAll_total]

/-- C7 witness: concrete streams with two and three distinct values into
a capacity-2 histogram. -/
theorem histogram_invariants_witness :
    1 ≤ 2
    ∧ (addAll 2 [1, 2, 3]).bins.length ≤ 2
    ∧ sumCounts (addAll 2 [1, 2, 3]).bins = 3
    ∧ (addAll 2 [1, 2, 3]).bins.length = 2
    ∧ (addAll 2 [1, 2]).bins.length = ([1, 2] : List ℚ).toFinset.card
    ∧ (addAll 2 [1, 2, 3]).quantile 0 = 0 :=
  ⟨by decide,
   (histogram_invariants 2 (by decide) [1, 2, 3]).1,
   (histogram_invariants 2 (by decide) [1, 2, 3]).2.2.1,
   (histogram_invariants 2 (by decide) [1, 2, 3]).2.2.2.2.1 (by decide),
   ((histogram_invariants 2 (by decide) [1, 2]).2.2.2.1 (by decide)).1,
   (histogram_invariants 2 (by decide) [1, 2, 3]).2.2.2.2.2.1⟩

/-- C8 counterexample: `WithAmount` on a running engine does not panic —
it silently mutates `N` (and would zero `Duration`), so not every
builder method panics while running. -/
theorem withAmount_no_panic_cex :
    Boomer.withAmount bRunning 5 = Except.ok { bRunning with N := 5 } := by
  rfl

/-- C8 (amended): while running, `WithDuration` and `WithConcurrency`
panic, but `WithAmount` performs no running check and mutates the run
parameters anyway. -/
theorem builder_panic_not_universal (b : Boomer) (n : ℕ) (d : ℤ) (c : ℕ)
    (h : b.running = true) :
    Boomer.withDuration b d = Except.error "Cannot modify boomer while running"
    ∧ Boomer.withConcurrency b c = Except.error "Cannot modify boomer while running"
    ∧ Boomer.withAmount b n =
        Except.ok { b with duration := if 0 < n then 0 else b.duration, N := n } := by
  refine ⟨?_, ?_, rfl⟩
  · unfold Boomer.withDuration
    rw [if_pos h]
  · unfold Boomer.withConcurrency
    rw [if_pos h]

/-- C8 witness: the three builder methods evaluated on a running engine. -/
theorem builder_panic_not_universal_witness :
    Boomer.withDuration bRunning 5 = Except.error "Cannot modify boomer while running"
    ∧ Boomer.withConcurrency bRunning 4 = Except.error "Cannot modify boomer while running"
    ∧ Boomer.withAmount bRunning 7 = Except.ok { bRunning with N := 7 } :=
  ⟨(builder_panic_not_universal bRunning 7 5 4 rfl).1,
   (builder_panic_not_universal bRunning 7 5 4 rfl).2.1,
   (builder_panic_not_universal bRunning 7 5 4 rfl).2.2⟩

/-- C9: on a non-empty, error-free stream of strictly positive durations,
`fastest` ends at the minimum duration in seconds and `slowest` at the
maximum; both start at the 0 sentinel. -/
theorem fastest_slowest_min_max (results : List Result) (hne : results ≠ [])
    (herr : ∀ res ∈ results, res.err = none)
    (hpos : ∀ res ∈ results, 0 < res.duration) :
    (results.map fun res => durSeconds res.duration).min?
        = some (processAll initialReport results).fastest
    ∧ (results.map fun res => durSeconds res.duration).max?
        = some (processAll initialReport results).slowest
    ∧ initialReport.fastest = 0 ∧ initialReport.slowest = 0 := by
  cases results with
  | nil => exact absurd rfl hne
  | cons res rest =>
    have hres : res.err = none := herr res (by simp)
    have hd : 0 < durSeconds res.duration := durSeconds_pos _ (hpos res (by simp))
    have hr1 : (initialReport.processResult res).fastest = durSeconds res.duration
        ∧ (initialReport.processResult res).slowest = durSeconds res.duration := by
      unfold Report.processResult
      rw [hres]
      constructor <;> simp [initialReport]
    have hmain := processAll_fastest_slowest rest (initialReport.processResult res)
      (fun x hx => herr x (by simp [hx]))
      (fun x hx => hpos x (by simp [hx]))
      (by rw [hr1.1]; exact hd)
      (by rw [hr1.2]; exact hd)
    refine ⟨?_, ?_, rfl, rfl⟩
    · show some ((rest.map fun r => durSeconds r.duration).foldl min
          (durSeconds res.duration)) = _
      rw [← hr1.1, ← hmain.1]
      rfl
    · show some ((rest.map fun r => durSeconds r.duration).foldl max
          (durSeconds res.duration)) = _
      rw [← hr1.2, ← hmain.2]
      rfl

/-- A successful two-second result. -/
def resultTwoSecs : Result :=
  { err := none, statusCode := 200, duration := 2000000000, contentLength := 10 }

/-- A successful one-second result. -/
def resultOneSec : Result :=
  { err := none, statusCode := 200, duration := 1000000000, contentLength := 10 }

/-- C9 witness: a concrete two-result stream with durations of 2 and 1
seconds. -/
theorem fastest_slowest_min_max_witness :
    ([resultTwoSecs, resultOneSec].map fun res => durSeconds res.duration).min?
      = some (processAll initialReport [resultTwoSecs, resultOneSec]).fastest
    ∧ ([resultTwoSecs, resultOneSec].map fun res => durSeconds res.duration).max?
      = some (processAll initialReport [resultTwoSecs, resultOneSec]).slowest :=
  ⟨(fastest_slowest_min_max [resultTwoSecs, resultOneSec]
      (by decide) (by decide) (by decide)).1,
   (fastest_slowest_min_max [resultTwoSecs, resultOneSec]
      (by decide) (by decide) (by decide)).2.1⟩

/-- C10: calling `Run` while the engine is already running returns
immediately: no worker is started, no timer armed, and no engine field
changed. -/
theorem run_noop_when_running (b : Boomer) (h : b.running = true) :
    Boomer.run b = (b, []) := by
  unfold Boomer.run
  rw [if_pos h]

/-- C10 witness: `Run` evaluated on a concrete running engine. -/
theorem run_noop_when_running_witness :
    Boomer.run bRunning = (bRunning, []) :=
  run_noop_when_running bRunning rfl

end Pla
